import Mathlib

/-!
Verification of the EPA (Equal-Probabilities Approach) solver for two-person
zero-sum games (`chaterjee_algorithm.py`).

The payoff matrix is embedded as a `List (List ℚ)` of rows.  Machine floats
are modelled by exact rationals.  The external LP routine (`scipy.optimize.linprog`
inside `solve_row_player_lp`) is passed as an explicit function parameter
`lp`; theorems about the pipeline hypothesise the feasibility facts that a
successful LP solve guarantees (nonnegative probabilities summing to one,
result length equal to the reduced row count).

The Python `while changed:` loop of `iterated_elimination_dominated_strategies`
is embedded with explicit fuel `m + n`; the theorem for the termination claim
proves that this fuel always reaches the loop's fixed point, so the embedding
agrees with the unbounded loop.
-/

namespace Chaterjee

/-- Row `ri` is weakly dominated by row `rj`:
`np.all(matrix[i, :] <= matrix[j, :]) and np.any(matrix[i, :] < matrix[j, :])`. -/
def weaklyDominatedBy (ri rj : List ℚ) : Bool :=
  ((ri.zip rj).all fun p => decide (p.1 ≤ p.2)) &&
  ((ri.zip rj).any fun p => decide (p.1 < p.2))

/-- Column `cj` is weakly dominated by column `ck`:
`np.all(matrix[:, j] >= matrix[:, k]) and np.any(matrix[:, j] > matrix[:, k])`. -/
def colWeaklyDominatedBy (cj ck : List ℚ) : Bool :=
  ((cj.zip ck).all fun p => decide (p.2 ≤ p.1)) &&
  ((cj.zip ck).any fun p => decide (p.2 < p.1))

/-- Column `j` of a row-major matrix, `matrix[:, j]`. -/
def getCol (matrix : List (List ℚ)) (j : Nat) : List ℚ :=
  matrix.map fun row => row.getD j 0

/-- `eliminate_weakly_dominated_rows`: flag per row, `true` = keep.
The Python inner loop with `break` marks row `i` exactly when some `j ≠ i`
weakly dominates it. -/
def eliminate_weakly_dominated_rows (matrix : List (List ℚ)) : List Bool :=
  (List.range matrix.length).map fun i =>
    !((List.range matrix.length).any fun j =>
      decide (j ≠ i) && weaklyDominatedBy (matrix.getD i []) (matrix.getD j []))

/-- `eliminate_weakly_dominated_cols`: flag per column, `true` = keep.
The number of columns `matrix.shape[1]` is the length of the first row. -/
def eliminate_weakly_dominated_cols (matrix : List (List ℚ)) : List Bool :=
  (List.range (matrix.headD []).length).map fun j =>
    !((List.range (matrix.headD []).length).any fun k =>
      decide (k ≠ j) && colWeaklyDominatedBy (getCol matrix j) (getCol matrix k))

/-- `A[np.ix_(rows, cols)]`: the submatrix with the given row and column indices. -/
def submatrix (A : List (List ℚ)) (rows cols : List Nat) : List (List ℚ) :=
  rows.map fun r => cols.map fun c => (A.getD r []).getD c 0

/-- `[r for r, keep in zip(active, keep_list) if keep == 1]`. -/
def filterKeep : List Nat → List Bool → List Nat
  | [], _ => []
  | _ :: _, [] => []
  | x :: a, b :: k => if b then x :: filterKeep a k else filterKeep a k

/-- Helper for `clearFlags`, walking the flag list with its index. -/
def clearFlagsFrom (active newActive : List Nat) : Nat → List Bool → List Bool
  | _, [] => []
  | i, b :: bs =>
      (if active.contains i && !(newActive.contains i) then false else b) ::
      clearFlagsFrom active newActive (i + 1) bs

/-- `for r in active: if r not in new_active: flags[r] = 0`. -/
def clearFlags (flags : List Bool) (active newActive : List Nat) : List Bool :=
  clearFlagsFrom active newActive 0 flags

/-- State of the elimination loop: original-length keep-flag vectors and
active index lists for both players. -/
structure RState where
  row_flags : List Bool
  col_flags : List Bool
  active_rows : List Nat
  active_cols : List Nat
deriving DecidableEq

/-- `row_keep = eliminate_weakly_dominated_rows(A[np.ix_(active_rows, active_cols)])`. -/
def rowKeepOf (A : List (List ℚ)) (s : RState) : List Bool :=
  eliminate_weakly_dominated_rows (submatrix A s.active_rows s.active_cols)

/-- `col_keep = eliminate_weakly_dominated_cols(A[np.ix_(active_rows, active_cols)])`. -/
def colKeepOf (A : List (List ℚ)) (s : RState) : List Bool :=
  eliminate_weakly_dominated_cols (submatrix A s.active_rows s.active_cols)

/-- One row-elimination pass of the loop body of
`iterated_elimination_dominated_strategies` (lines 93-103): if some row keep
flag is 0, shrink the active row list and clear the corresponding flags. -/
def rowPass (A : List (List ℚ)) (s : RState) : RState × Bool :=
  if (rowKeepOf A s).countP id < (rowKeepOf A s).length then
    (⟨clearFlags s.row_flags s.active_rows (filterKeep s.active_rows (rowKeepOf A s)),
      s.col_flags, filterKeep s.active_rows (rowKeepOf A s), s.active_cols⟩, true)
  else (s, false)

/-- One column-elimination pass of the loop body (lines 105-115), run on the
matrix re-sliced with the just-updated active rows. -/
def colPass (A : List (List ℚ)) (s : RState) : RState × Bool :=
  if (colKeepOf A s).countP id < (colKeepOf A s).length then
    (⟨s.row_flags, clearFlags s.col_flags s.active_cols (filterKeep s.active_cols (colKeepOf A s)),
      s.active_rows, filterKeep s.active_cols (colKeepOf A s)⟩, true)
  else (s, false)

/-- One iteration of the `while changed:` body: the row pass followed by the
column pass; `changed` is true when either pass eliminated something. -/
def reduceStep (A : List (List ℚ)) (s : RState) : RState × Bool :=
  ((colPass A (rowPass A s).1).1, (rowPass A s).2 || (colPass A (rowPass A s).1).2)

/-- The `while changed:` loop, with explicit fuel.  Fuel `m + n` is proved
sufficient to reach the fixed point, so this matches the unbounded loop. -/
def reduceLoop (A : List (List ℚ)) : Nat → RState → RState
  | 0, s => s
  | fuel + 1, s =>
      if (reduceStep A s).2 then reduceLoop A fuel (reduceStep A s).1
      else (reduceStep A s).1

/-- Initial loop state: all flags 1, all indices active. -/
def initState (m n : Nat) : RState :=
  ⟨List.replicate m true, List.replicate n true, List.range m, List.range n⟩

/-- Final loop state for an `m × n` matrix. -/
def reduceState (A : List (List ℚ)) (m n : Nat) : RState :=
  reduceLoop A (m + n) (initState m n)

/-- `orig_rows, orig_cols = matrix.shape`: `np.array` of a list of rows is a
2-D array exactly when the outer list is nonempty and all rows have equal
length; otherwise the shape is 1-D and the unpacking raises. -/
def np_shape (matrix : List (List ℚ)) : Option (Nat × Nat) :=
  match matrix with
  | [] => none
  | r :: _ =>
      if matrix.all fun row => row.length = r.length then
        some (matrix.length, r.length)
      else none

/-- `iterated_elimination_dominated_strategies`: iterate row/column weak-dominance
elimination to a fixed point; return the reduced matrix and both keep-flag
vectors.  `none` models the exception raised when shape unpacking fails. -/
def iterated_elimination_dominated_strategies (matrix : List (List ℚ)) :
    Option (List (List ℚ) × List Bool × List Bool) :=
  match np_shape matrix with
  | none => none
  | some (orig_rows, orig_cols) =>
      some (submatrix matrix (reduceState matrix orig_rows orig_cols).active_rows
              (reduceState matrix orig_rows orig_cols).active_cols,
            (reduceState matrix orig_rows orig_cols).row_flags,
            (reduceState matrix orig_rows orig_cols).col_flags)

/-- Strategy expansion (lines 230-243): walk the flags; at a `true` flag consume
the next entry of the reduced vector, at a `false` flag place `0`. -/
def expand_strategy : List Bool → List ℚ → List ℚ
  | [], _ => []
  | true :: flags, reduced => reduced.headD 0 :: expand_strategy flags reduced.tail
  | false :: flags, reduced => 0 :: expand_strategy flags reduced

/-- Dot product of two equal-length vectors, `np.dot` on 1-D arrays. -/
def dotQ (xs ys : List ℚ) : ℚ :=
  ((xs.zip ys).map fun p => p.1 * p.2).sum

/-- `np.dot(matrix, y)`: each row dotted with `y`. -/
def matVec (M : List (List ℚ)) (y : List ℚ) : List ℚ :=
  M.map fun row => dotQ row y

/-- `chaterjee_epa_algorithm`: reduce, solve the row LP (external solver passed
as `lp`), give the column player the uniform distribution over surviving
columns, expand both strategies, and recompute the game value as
`fullRow . (A . fullCol)`. -/
def chaterjee_epa_algorithm (lp : List (List ℚ) → Option (List ℚ × ℚ))
    (payoff_matrix : List (List ℚ)) : Option (List ℚ × List ℚ × ℚ) :=
  match iterated_elimination_dominated_strategies payoff_matrix with
  | none => none
  | some (reduced_matrix, row_flags, col_flags) =>
      match lp reduced_matrix with
      | none => none
      | some (row_strategy_reduced, _game_value) =>
          let num_active_cols := col_flags.countP id
          let col_strategy_reduced :=
            List.replicate num_active_cols (1 / (num_active_cols : ℚ))
          let row_strategy_full := expand_strategy row_flags row_strategy_reduced
          let col_strategy_full := expand_strategy col_flags col_strategy_reduced
          let game_value_epa := dotQ row_strategy_full (matVec payoff_matrix col_strategy_full)
          some (row_strategy_full, col_strategy_full, game_value_epa)

/-- The negated transpose of a matrix: row `j` is `-matrix[:, j]`. -/
def negTranspose (M : List (List ℚ)) : List (List ℚ) :=
  (List.range (M.headD []).length).map fun j => M.map fun row => -(row.getD j 0)

/-- Minimum entry of a matrix (default 0 on an entryless matrix). -/
def entriesMin (M : List (List ℚ)) : ℚ :=
  M.flatten.foldr min (M.flatten.headD 0)

/-- Maximum entry of a matrix (default 0 on an entryless matrix). -/
def entriesMax (M : List (List ℚ)) : ℚ :=
  M.flatten.foldr max (M.flatten.headD 0)

/-! ### Bridging lemmas between Bool-level list scans and bounded quantifiers -/

theorem zipAll_iff (p : ℚ → ℚ → Bool) :
    ∀ (xs ys : List ℚ), xs.length = ys.length →
      (((xs.zip ys).all fun q => p q.1 q.2) = true ↔
        ∀ k, k < xs.length → p (xs.getD k 0) (ys.getD k 0) = true) := by
  intro xs
  induction xs with
  | nil => intro ys h; simp
  | cons x xs ih =>
    intro ys h
    cases ys with
    | nil => simp at h
    | cons y ys =>
      simp only [List.length_cons, Nat.succ_eq_add_one, Nat.add_right_cancel_iff] at h
      simp only [List.zip_cons_cons, List.all_cons, Bool.and_eq_true, List.length_cons]
      constructor
      · rintro ⟨hp, hall⟩ k hk
        cases k with
        | zero => simpa using hp
        | succ k =>
          simp only [List.getD_cons_succ]
          exact (ih ys h).mp hall k (by omega)
      · intro hall
        refine ⟨by simpa using hall 0 (by omega), (ih ys h).mpr ?_⟩
        intro k hk
        have := hall (k + 1) (by omega)
        simpa using this

theorem zipAny_iff (p : ℚ → ℚ → Bool) :
    ∀ (xs ys : List ℚ), xs.length = ys.length →
      (((xs.zip ys).any fun q => p q.1 q.2) = true ↔
        ∃ k, k < xs.length ∧ p (xs.getD k 0) (ys.getD k 0) = true) := by
  intro xs
  induction xs with
  | nil => intro ys h; simp
  | cons x xs ih =>
    intro ys h
    cases ys with
    | nil => simp at h
    | cons y ys =>
      simp only [List.length_cons, Nat.succ_eq_add_one, Nat.add_right_cancel_iff] at h
      simp only [List.zip_cons_cons, List.any_cons, Bool.or_eq_true, List.length_cons]
      constructor
      · rintro (hp | hany)
        · exact ⟨0, by omega, by simpa using hp⟩
        · obtain ⟨k, hk, hpk⟩ := (ih ys h).mp hany
          exact ⟨k + 1, by omega, by simpa using hpk⟩
      · rintro ⟨k, hk, hpk⟩
        cases k with
        | zero => exact Or.inl (by simpa using hpk)
        | succ k =>
          refine Or.inr ((ih ys h).mpr ⟨k, by omega, ?_⟩)
          simpa using hpk

theorem getD_range_map {α : Type} (f : Nat → α) (n i : Nat) (d : α) (h : i < n) :
    ((List.range n).map f).getD i d = f i := by
  have h1 : i < ((List.range n).map f).length := by simpa using h
  rw [List.getD_eq_getElem _ _ h1, List.getElem_map, List.getElem_range]

/-! ### The weak-dominance relation is irreflexive and transitive -/

theorem mem_zip_self {q : ℚ × ℚ} : ∀ {r : List ℚ}, q ∈ r.zip r → q.1 = q.2 := by
  intro r
  induction r with
  | nil => simp
  | cons a t ih =>
    intro hq
    rcases List.mem_cons.mp hq with h | h
    · subst h; rfl
    · exact ih h

theorem weaklyDominatedBy_irrefl (r : List ℚ) : weaklyDominatedBy r r = false := by
  have hany : ((r.zip r).any fun q => decide (q.1 < q.2)) = false := by
    rw [List.any_eq_false]
    intro q hq
    have := mem_zip_self hq
    simp [this]
  unfold weaklyDominatedBy
  rw [hany, Bool.and_false]

theorem weaklyDominatedBy_iff {c : Nat} {r s : List ℚ}
    (hr : r.length = c) (hs : s.length = c) :
    weaklyDominatedBy r s = true ↔
      (∀ k, k < c → r.getD k 0 ≤ s.getD k 0) ∧
      ∃ k, k < c ∧ r.getD k 0 < s.getD k 0 := by
  unfold weaklyDominatedBy
  rw [Bool.and_eq_true,
    zipAll_iff (fun a b => decide (a ≤ b)) r s (by omega),
    zipAny_iff (fun a b => decide (a < b)) r s (by omega)]
  simp [hr]

theorem weaklyDominatedBy_trans {c : Nat} {r s t : List ℚ}
    (hr : r.length = c) (hs : s.length = c) (ht : t.length = c)
    (h1 : weaklyDominatedBy r s = true) (h2 : weaklyDominatedBy s t = true) :
    weaklyDominatedBy r t = true := by
  rw [weaklyDominatedBy_iff hr hs] at h1
  rw [weaklyDominatedBy_iff hs ht] at h2
  rw [weaklyDominatedBy_iff hr ht]
  obtain ⟨hle1, k, hk, hlt1⟩ := h1
  obtain ⟨hle2, _⟩ := h2
  refine ⟨fun k hk => le_trans (hle1 k hk) (hle2 k hk), k, hk, ?_⟩
  exact lt_of_lt_of_le hlt1 (hle2 k hk)

/-- In a nonempty list of equal-length rows there is a row not weakly dominated
by any row of the list: pick any maximal row for the dominance order. -/
theorem exists_undominated :
    ∀ (L : List (List ℚ)) (c : Nat), L ≠ [] → (∀ r ∈ L, r.length = c) →
      ∃ r ∈ L, ∀ r2 ∈ L, weaklyDominatedBy r r2 = false := by
  intro L
  induction L with
  | nil => intro c h; exact absurd rfl h
  | cons a L ih =>
    intro c _ hlen
    cases L with
    | nil =>
      refine ⟨a, by simp, ?_⟩
      intro r2 hr2
      rcases List.mem_singleton.mp hr2 with rfl
      exact weaklyDominatedBy_irrefl _
    | cons b L' =>
      obtain ⟨r, hrL, hmax⟩ := ih c (by simp)
        (fun x hx => hlen x (List.mem_cons_of_mem a hx))
      by_cases hd : weaklyDominatedBy r a = true
      · refine ⟨a, List.mem_cons_self a _, ?_⟩
        intro r2 hr2
        rcases List.mem_cons.mp hr2 with rfl | hr2
        · exact weaklyDominatedBy_irrefl r2
        · by_contra hne
          have h2 : weaklyDominatedBy a r2 = true :=
            eq_true_of_ne_false hne
          have := weaklyDominatedBy_trans
            (hlen r (List.mem_cons_of_mem a hrL)) (hlen a (List.mem_cons_self a _))
            (hlen r2 (List.mem_cons_of_mem a hr2)) hd h2
          rw [hmax r2 hr2] at this
          exact Bool.false_ne_true this
      · refine ⟨r, List.mem_cons_of_mem a hrL, ?_⟩
        intro r2 hr2
        rcases List.mem_cons.mp hr2 with rfl | hr2
        · exact Bool.eq_false_iff.mpr hd
        · exact hmax r2 hr2

theorem eliminate_rows_length (M : List (List ℚ)) :
    (eliminate_weakly_dominated_rows M).length = M.length := by
  simp [eliminate_weakly_dominated_rows]

theorem eliminate_cols_length (M : List (List ℚ)) :
    (eliminate_weakly_dominated_cols M).length = (M.headD []).length := by
  simp [eliminate_weakly_dominated_cols]

/-- Single-pass row elimination always keeps at least one row of a nonempty
rectangular matrix. -/
theorem exists_keep_row (M : List (List ℚ)) (c : Nat) (hne : M ≠ [])
    (hrect : ∀ r ∈ M, r.length = c) :
    ∃ i, i < M.length ∧ (eliminate_weakly_dominated_rows M).getD i false = true := by
  obtain ⟨r, hrM, hmax⟩ := exists_undominated M c hne hrect
  obtain ⟨i, hi, hri⟩ := List.getElem_of_mem hrM
  refine ⟨i, hi, ?_⟩
  unfold eliminate_weakly_dominated_rows
  rw [getD_range_map _ _ _ _ hi]
  have hany : ((List.range M.length).any fun j =>
      decide (j ≠ i) && weaklyDominatedBy (M.getD i []) (M.getD j [])) = false := by
    rw [List.any_eq_false]
    intro j hj
    rw [List.mem_range] at hj
    simp only [Bool.and_eq_true, decide_eq_true_eq, not_and]
    intro _
    have hMi : M.getD i [] = r := by
      rw [List.getD_eq_getElem _ _ hi]; exact hri
    have hMj : M.getD j [] ∈ M := by
      rw [List.getD_eq_getElem _ _ hj]
      exact List.getElem_mem hj
    rw [hMi, hmax _ hMj]
    exact Bool.false_ne_true
  rw [hany]
  rfl

/-! ### Duality: the column check is the row check on the negated transpose -/

theorem anyCongr {α : Type} (l : List α) (f g : α → Bool)
    (h : ∀ x ∈ l, f x = g x) : l.any f = l.any g := by
  induction l with
  | nil => rfl
  | cons a t ih =>
    simp only [List.any_cons]
    rw [h a (List.mem_cons_self a t), ih fun x hx => h x (List.mem_cons_of_mem a hx)]

theorem mapCongr {α β : Type} (l : List α) (f g : α → β)
    (h : ∀ x ∈ l, f x = g x) : l.map f = l.map g := by
  induction l with
  | nil => rfl
  | cons a t ih =>
    simp only [List.map_cons]
    rw [h a (List.mem_cons_self a t), ih fun x hx => h x (List.mem_cons_of_mem a hx)]

theorem negTranspose_length (M : List (List ℚ)) :
    (negTranspose M).length = (M.headD []).length := by
  simp [negTranspose]

theorem negTranspose_getD (M : List (List ℚ)) (j : Nat)
    (hj : j < (M.headD []).length) :
    (negTranspose M).getD j [] = (getCol M j).map fun x => -x := by
  unfold negTranspose
  rw [getD_range_map _ _ _ _ hj]
  unfold getCol
  rw [List.map_map]
  rfl

theorem weaklyDominatedBy_neg (c c' : List ℚ) :
    weaklyDominatedBy (c.map fun x => -x) (c'.map fun x => -x) =
      colWeaklyDominatedBy c c' := by
  unfold weaklyDominatedBy colWeaklyDominatedBy
  rw [List.zip_map, List.all_map, List.any_map]
  have h1 : ((fun q : ℚ × ℚ => decide (q.1 ≤ q.2)) ∘
      Prod.map (fun x : ℚ => -x) fun x : ℚ => -x) =
      fun q : ℚ × ℚ => decide (q.2 ≤ q.1) := by
    funext q
    rw [Function.comp_apply, decide_eq_decide]
    exact neg_le_neg_iff
  have h2 : ((fun q : ℚ × ℚ => decide (q.1 < q.2)) ∘
      Prod.map (fun x : ℚ => -x) fun x : ℚ => -x) =
      fun q : ℚ × ℚ => decide (q.2 < q.1) := by
    funext q
    rw [Function.comp_apply, decide_eq_decide]
    exact neg_lt_neg_iff
  rw [h1, h2]

theorem eliminate_cols_eq_rows_negTranspose (M : List (List ℚ)) :
    eliminate_weakly_dominated_cols M =
      eliminate_weakly_dominated_rows (negTranspose M) := by
  unfold eliminate_weakly_dominated_cols eliminate_weakly_dominated_rows
  rw [negTranspose_length]
  refine mapCongr _ _ _ ?_
  intro j hj
  rw [List.mem_range] at hj
  have hany : ∀ k ∈ List.range (M.headD []).length,
      (decide (k ≠ j) && colWeaklyDominatedBy (getCol M j) (getCol M k)) =
      (decide (k ≠ j) &&
        weaklyDominatedBy ((negTranspose M).getD j []) ((negTranspose M).getD k [])) := by
    intro k hk
    rw [List.mem_range] at hk
    rw [negTranspose_getD M j hj, negTranspose_getD M k hk, weaklyDominatedBy_neg]
  rw [anyCongr _ _ _ hany]

/-- Single-pass column elimination always keeps at least one column of a
matrix with at least one column (derived by duality from the row lemma). -/
theorem exists_keep_col (M : List (List ℚ)) (hne : (M.headD []).length ≠ 0) :
    ∃ j, j < (M.headD []).length ∧
      (eliminate_weakly_dominated_cols M).getD j false = true := by
  rw [eliminate_cols_eq_rows_negTranspose]
  have hlen : (negTranspose M).length = (M.headD []).length := negTranspose_length M
  have hnil : negTranspose M ≠ [] := by
    intro h
    rw [h] at hlen
    exact hne hlen.symm
  have hrect : ∀ r ∈ negTranspose M, r.length = M.length := by
    intro r hr
    unfold negTranspose at hr
    obtain ⟨j, _, rfl⟩ := List.mem_map.mp hr
    simp
  obtain ⟨j, hj, hkeep⟩ := exists_keep_row (negTranspose M) M.length hnil hrect
  exact ⟨j, by omega, hkeep⟩

/-! ### Basic facts about `submatrix`, `filterKeep`, `clearFlags` -/

theorem submatrix_length (A : List (List ℚ)) (rows cols : List Nat) :
    (submatrix A rows cols).length = rows.length := by
  simp [submatrix]

theorem submatrix_rect (A : List (List ℚ)) (rows cols : List Nat) :
    ∀ r ∈ submatrix A rows cols, r.length = cols.length := by
  intro r hr
  obtain ⟨i, _, rfl⟩ := List.mem_map.mp hr
  simp

theorem submatrix_headD_length (A : List (List ℚ)) (rows cols : List Nat)
    (h : rows ≠ []) : ((submatrix A rows cols).headD []).length = cols.length := by
  cases rows with
  | nil => exact absurd rfl h
  | cons r rest => simp [submatrix]

theorem submatrix_ne_nil (A : List (List ℚ)) (rows cols : List Nat)
    (h : rows ≠ []) : submatrix A rows cols ≠ [] := by
  cases rows with
  | nil => exact absurd rfl h
  | cons r rest => simp [submatrix]

theorem filterKeep_sublist : ∀ (a : List Nat) (k : List Bool),
    (filterKeep a k).Sublist a := by
  intro a
  induction a with
  | nil => intro k; cases k <;> simp [filterKeep]
  | cons x a ih =>
    intro k
    cases k with
    | nil => simp [filterKeep]
    | cons b k =>
      unfold filterKeep
      by_cases hb : b = true
      · rw [hb, if_pos rfl]
        exact (ih k).cons₂ x
      · rw [Bool.eq_false_iff.mpr hb, if_neg Bool.false_ne_true]
        exact (ih k).cons x

theorem filterKeep_subset (a : List Nat) (k : List Bool) :
    ∀ x ∈ filterKeep a k, x ∈ a :=
  fun _ hx => (filterKeep_sublist a k).subset hx

theorem filterKeep_nodup (a : List Nat) (k : List Bool) (h : a.Nodup) :
    (filterKeep a k).Nodup :=
  h.sublist (filterKeep_sublist a k)

theorem filterKeep_length : ∀ (a : List Nat) (k : List Bool),
    a.length = k.length → (filterKeep a k).length = k.countP id := by
  intro a
  induction a with
  | nil =>
    intro k h
    cases k with
    | nil => rfl
    | cons b k => simp at h
  | cons x a ih =>
    intro k h
    cases k with
    | nil => simp at h
    | cons b k =>
      simp only [List.length_cons, Nat.add_right_cancel_iff] at h
      unfold filterKeep
      rw [List.countP_cons]
      by_cases hb : b = true
      · rw [hb, if_pos rfl]
        simp [ih k h]
      · rw [Bool.eq_false_iff.mpr hb, if_neg Bool.false_ne_true]
        simp [ih k h, Bool.eq_false_iff.mpr hb]

theorem filterKeep_getD_mem : ∀ (a : List Nat) (k : List Bool) (i : Nat),
    i < a.length → k.getD i false = true → a.getD i 0 ∈ filterKeep a k := by
  intro a
  induction a with
  | nil => intro k i h; simp at h
  | cons x a ih =>
    intro k i hi hk
    cases k with
    | nil => simp at hk
    | cons b k =>
      cases i with
      | zero =>
        simp only [List.getD_cons_zero] at hk
        unfold filterKeep
        rw [hk, if_pos rfl]
        exact List.mem_cons_self x _
      | succ i =>
        simp only [List.getD_cons_succ] at hk ⊢
        have hmem := ih k i (by simpa using Nat.lt_of_succ_lt_succ hi) hk
        unfold filterKeep
        by_cases hb : b = true
        · rw [hb, if_pos rfl]
          exact List.mem_cons_of_mem x hmem
        · rw [Bool.eq_false_iff.mpr hb, if_neg Bool.false_ne_true]
          exact hmem

theorem clearFlagsFrom_length (o nw : List Nat) :
    ∀ (bs : List Bool) (s : Nat), (clearFlagsFrom o nw s bs).length = bs.length := by
  intro bs
  induction bs with
  | nil => intro s; rfl
  | cons b bs ih => intro s; simp [clearFlagsFrom, ih]

theorem clearFlagsFrom_getD (o nw : List Nat) :
    ∀ (bs : List Bool) (s i : Nat), i < bs.length →
      (clearFlagsFrom o nw s bs).getD i false =
        if o.contains (s + i) && !(nw.contains (s + i)) then false
        else bs.getD i false := by
  intro bs
  induction bs with
  | nil => intro s i h; simp at h
  | cons b bs ih =>
    intro s i hi
    cases i with
    | zero => simp [clearFlagsFrom]
    | succ i =>
      unfold clearFlagsFrom
      simp only [List.getD_cons_succ]
      rw [ih (s + 1) i (by simpa using Nat.lt_of_succ_lt_succ hi)]
      have : s + 1 + i = s + (i + 1) := by omega
      rw [this]

theorem clearFlags_length (flags : List Bool) (o nw : List Nat) :
    (clearFlags flags o nw).length = flags.length :=
  clearFlagsFrom_length o nw flags 0

theorem clearFlags_getD (flags : List Bool) (o nw : List Nat) (i : Nat)
    (hi : i < flags.length) :
    (clearFlags flags o nw).getD i false =
      if o.contains i && !(nw.contains i) then false else flags.getD i false := by
  unfold clearFlags
  rw [clearFlagsFrom_getD o nw flags 0 i hi]
  rw [Nat.zero_add]

/-! ### The loop invariant -/

/-- Invariant of the elimination loop: the keep-flag vectors record exactly
membership in the active index lists, the active lists are duplicate-free,
in bounds, and nonempty. -/
def Inv (m n : Nat) (s : RState) : Prop :=
  s.row_flags = ((List.range m).map fun i => decide (i ∈ s.active_rows)) ∧
  s.col_flags = ((List.range n).map fun j => decide (j ∈ s.active_cols)) ∧
  s.active_rows.Nodup ∧ s.active_cols.Nodup ∧
  (∀ i ∈ s.active_rows, i < m) ∧ (∀ j ∈ s.active_cols, j < n) ∧
  s.active_rows ≠ [] ∧ (n ≠ 0 → s.active_cols ≠ [])

theorem rowPass_pos (A : List (List ℚ)) (s : RState)
    (h : (rowKeepOf A s).countP id < (rowKeepOf A s).length) :
    rowPass A s =
      (⟨clearFlags s.row_flags s.active_rows (filterKeep s.active_rows (rowKeepOf A s)),
        s.col_flags, filterKeep s.active_rows (rowKeepOf A s), s.active_cols⟩, true) := by
  unfold rowPass
  rw [if_pos h]

theorem rowPass_neg (A : List (List ℚ)) (s : RState)
    (h : ¬(rowKeepOf A s).countP id < (rowKeepOf A s).length) :
    rowPass A s = (s, false) := by
  unfold rowPass
  rw [if_neg h]

theorem colPass_pos (A : List (List ℚ)) (s : RState)
    (h : (colKeepOf A s).countP id < (colKeepOf A s).length) :
    colPass A s =
      (⟨s.row_flags, clearFlags s.col_flags s.active_cols (filterKeep s.active_cols (colKeepOf A s)),
        s.active_rows, filterKeep s.active_cols (colKeepOf A s)⟩, true) := by
  unfold colPass
  rw [if_pos h]

theorem colPass_neg (A : List (List ℚ)) (s : RState)
    (h : ¬(colKeepOf A s).countP id < (colKeepOf A s).length) :
    colPass A s = (s, false) := by
  unfold colPass
  rw [if_neg h]

theorem rowKeepOf_length (A : List (List ℚ)) (s : RState) :
    (rowKeepOf A s).length = s.active_rows.length := by
  unfold rowKeepOf
  rw [eliminate_rows_length, submatrix_length]

theorem colKeepOf_length (A : List (List ℚ)) (s : RState)
    (h : s.active_rows ≠ []) :
    (colKeepOf A s).length = s.active_cols.length := by
  unfold colKeepOf
  rw [eliminate_cols_length, submatrix_headD_length A _ _ h]

theorem colKeepOf_nil (A : List (List ℚ)) (s : RState)
    (h : s.active_rows = []) : colKeepOf A s = [] := by
  simp [colKeepOf, submatrix, h, eliminate_weakly_dominated_cols]

theorem clearFlags_map_range (m : Nat) (a na : List Nat)
    (hsub : ∀ x ∈ na, x ∈ a) :
    clearFlags ((List.range m).map fun i => decide (i ∈ a)) a na =
      ((List.range m).map fun i => decide (i ∈ na)) := by
  have hl1 : (clearFlags ((List.range m).map fun i => decide (i ∈ a)) a na).length = m := by
    rw [clearFlags_length]; simp
  have hl2 : ((List.range m).map fun i => decide (i ∈ na)).length = m := by simp
  apply List.ext_getElem (by rw [hl1, hl2])
  intro i h1 h2
  rw [hl1] at h1
  rw [← List.getD_eq_getElem _ false, ← List.getD_eq_getElem _ false]
  rw [clearFlags_getD _ _ _ i (by simp [h1]), getD_range_map _ _ _ _ h1,
    getD_range_map _ _ _ _ h1]
  by_cases hna : i ∈ na
  · have ha : i ∈ a := hsub i hna
    simp [hna, ha]
  · by_cases ha : i ∈ a
    · simp [hna, ha]
    · simp [hna, ha]

theorem rowPass_inv {m n : Nat} (A : List (List ℚ)) (s : RState)
    (h : Inv m n s) : Inv m n (rowPass A s).1 := by
  obtain ⟨hrf, hcf, hndr, hndc, hbr, hbc, hner, hnec⟩ := h
  by_cases hcond : (rowKeepOf A s).countP id < (rowKeepOf A s).length
  · rw [rowPass_pos A s hcond]
    have hsub : ∀ x ∈ filterKeep s.active_rows (rowKeepOf A s), x ∈ s.active_rows :=
      filterKeep_subset _ _
    have hnenil : filterKeep s.active_rows (rowKeepOf A s) ≠ [] := by
      have hcne : submatrix A s.active_rows s.active_cols ≠ [] :=
        submatrix_ne_nil A _ _ hner
      obtain ⟨i, hi, hkt⟩ := exists_keep_row (submatrix A s.active_rows s.active_cols)
        s.active_cols.length hcne (submatrix_rect A _ _)
      rw [submatrix_length] at hi
      exact List.ne_nil_of_mem (filterKeep_getD_mem _ _ i hi hkt)
    refine ⟨?_, hcf, filterKeep_nodup _ _ hndr, hndc,
      fun i hi => hbr i (hsub i hi), hbc, hnenil, hnec⟩
    show clearFlags s.row_flags s.active_rows _ = _
    rw [hrf]
    exact clearFlags_map_range m _ _ hsub
  · rw [rowPass_neg A s hcond]
    exact ⟨hrf, hcf, hndr, hndc, hbr, hbc, hner, hnec⟩

theorem colPass_inv {m n : Nat} (A : List (List ℚ)) (s : RState)
    (h : Inv m n s) : Inv m n (colPass A s).1 := by
  obtain ⟨hrf, hcf, hndr, hndc, hbr, hbc, hner, hnec⟩ := h
  by_cases hcond : (colKeepOf A s).countP id < (colKeepOf A s).length
  · rw [colPass_pos A s hcond]
    have hsub : ∀ x ∈ filterKeep s.active_cols (colKeepOf A s), x ∈ s.active_cols :=
      filterKeep_subset _ _
    have hklen : (colKeepOf A s).length = s.active_cols.length :=
      colKeepOf_length A s hner
    have hacne : s.active_cols.length ≠ 0 := by
      intro h0
      rw [hklen, h0] at hcond
      omega
    have hnenil : filterKeep s.active_cols (colKeepOf A s) ≠ [] := by
      obtain ⟨j, hj, hkt⟩ := exists_keep_col (submatrix A s.active_rows s.active_cols)
        (by rw [submatrix_headD_length A _ _ hner]; exact hacne)
      rw [submatrix_headD_length A _ _ hner] at hj
      exact List.ne_nil_of_mem (filterKeep_getD_mem _ _ j hj hkt)
    refine ⟨hrf, ?_, hndr, filterKeep_nodup _ _ hndc,
      hbr, fun j hj => hbc j (hsub j hj), hner, fun _ => hnenil⟩
    show clearFlags s.col_flags s.active_cols _ = _
    rw [hcf]
    exact clearFlags_map_range n _ _ hsub
  · rw [colPass_neg A s hcond]
    exact ⟨hrf, hcf, hndr, hndc, hbr, hbc, hner, hnec⟩

theorem reduceStep_fst (A : List (List ℚ)) (s : RState) :
    (reduceStep A s).1 = (colPass A (rowPass A s).1).1 := rfl

theorem reduceStep_snd (A : List (List ℚ)) (s : RState) :
    (reduceStep A s).2 = ((rowPass A s).2 || (colPass A (rowPass A s).1).2) := rfl

theorem reduceStep_inv {m n : Nat} (A : List (List ℚ)) (s : RState)
    (h : Inv m n s) : Inv m n (reduceStep A s).1 := by
  rw [reduceStep_fst]
  exact colPass_inv A (rowPass A s).1 (rowPass_inv A s h)

theorem reduceLoop_inv {m n : Nat} (A : List (List ℚ)) :
    ∀ (fuel : Nat) (s : RState), Inv m n s → Inv m n (reduceLoop A fuel s) := by
  intro fuel
  induction fuel with
  | zero => intro s h; exact h
  | succ fuel ih =>
    intro s h
    unfold reduceLoop
    by_cases hch : (reduceStep A s).2 = true
    · rw [if_pos hch]
      exact ih _ (reduceStep_inv A s h)
    · rw [if_neg hch]
      exact reduceStep_inv A s h

theorem initState_inv (m n : Nat) (hm : m ≠ 0) : Inv m n (initState m n) := by
  unfold Inv initState
  simp only
  refine ⟨?_, ?_, List.nodup_range _, List.nodup_range _,
    fun i hi => List.mem_range.mp hi, fun j hj => List.mem_range.mp hj,
    by simp [List.range_eq_nil, hm], fun hn => by simp [List.range_eq_nil, hn]⟩
  · rw [mapCongr (List.range m) _ (fun _ => true) fun i hi => by simp [hi]]
    simp
  · rw [mapCongr (List.range n) _ (fun _ => true) fun j hj => by simp [hj]]
    simp

/-! ### Termination: each changing iteration shrinks an active list -/

theorem rowPass_not_changed (A : List (List ℚ)) (s : RState)
    (h : (rowPass A s).2 = false) : (rowPass A s).1 = s := by
  by_cases hcond : (rowKeepOf A s).countP id < (rowKeepOf A s).length
  · rw [rowPass_pos A s hcond] at h
    simp at h
  · rw [rowPass_neg A s hcond]

theorem colPass_not_changed (A : List (List ℚ)) (s : RState)
    (h : (colPass A s).2 = false) : (colPass A s).1 = s := by
  by_cases hcond : (colKeepOf A s).countP id < (colKeepOf A s).length
  · rw [colPass_pos A s hcond] at h
    simp at h
  · rw [colPass_neg A s hcond]

theorem rowPass_changed (A : List (List ℚ)) (s : RState)
    (h : (rowPass A s).2 = true) :
    (rowPass A s).1.active_rows.length < s.active_rows.length ∧
      (rowPass A s).1.active_cols = s.active_cols := by
  by_cases hcond : (rowKeepOf A s).countP id < (rowKeepOf A s).length
  · rw [rowPass_pos A s hcond]
    have hklen : s.active_rows.length = (rowKeepOf A s).length :=
      (rowKeepOf_length A s).symm
    constructor
    · show (filterKeep s.active_rows (rowKeepOf A s)).length < _
      rw [filterKeep_length _ _ hklen]
      omega
    · rfl
  · rw [rowPass_neg A s hcond] at h
    simp at h

theorem colPass_changed (A : List (List ℚ)) (s : RState)
    (h : (colPass A s).2 = true) :
    (colPass A s).1.active_cols.length < s.active_cols.length ∧
      (colPass A s).1.active_rows = s.active_rows := by
  by_cases hcond : (colKeepOf A s).countP id < (colKeepOf A s).length
  · rw [colPass_pos A s hcond]
    have har : s.active_rows ≠ [] := by
      intro hnil
      rw [colKeepOf_nil A s hnil] at hcond
      simp at hcond
    have hklen : s.active_cols.length = (colKeepOf A s).length :=
      (colKeepOf_length A s har).symm
    constructor
    · show (filterKeep s.active_cols (colKeepOf A s)).length < _
      rw [filterKeep_length _ _ hklen]
      omega
    · rfl
  · rw [colPass_neg A s hcond] at h
    simp at h

theorem reduceStep_not_changed (A : List (List ℚ)) (s : RState)
    (h : (reduceStep A s).2 = false) : (reduceStep A s).1 = s := by
  rw [reduceStep_snd] at h
  rw [reduceStep_fst]
  rw [Bool.or_eq_false_iff] at h
  have h1 := rowPass_not_changed A s h.1
  have h2 := colPass_not_changed A (rowPass A s).1 h.2
  rw [h2, h1]

theorem reduceStep_changed (A : List (List ℚ)) (s : RState)
    (h : (reduceStep A s).2 = true) :
    (reduceStep A s).1.active_rows.length + (reduceStep A s).1.active_cols.length <
      s.active_rows.length + s.active_cols.length := by
  rw [reduceStep_snd] at h
  rw [reduceStep_fst]
  by_cases h1 : (rowPass A s).2 = true
  · obtain ⟨hlt, hcols⟩ := rowPass_changed A s h1
    by_cases h2 : (colPass A (rowPass A s).1).2 = true
    · obtain ⟨hlt2, hrows2⟩ := colPass_changed A (rowPass A s).1 h2
      rw [hcols] at hlt2
      rw [hrows2]
      omega
    · have heq := colPass_not_changed A (rowPass A s).1 (Bool.eq_false_iff.mpr h2)
      rw [heq, hcols]
      omega
  · have heq1 := rowPass_not_changed A s (Bool.eq_false_iff.mpr h1)
    rw [Bool.or_eq_true] at h
    have h2 : (colPass A (rowPass A s).1).2 = true := by
      rcases h with h | h
      · exact absurd h h1
      · exact h
    obtain ⟨hlt2, hrows2⟩ := colPass_changed A (rowPass A s).1 h2
    rw [heq1] at hlt2 hrows2
    rw [heq1, hrows2]
    omega

theorem reduceStep_nil_actives (A : List (List ℚ)) (s : RState)
    (h1 : s.active_rows = []) (_h2 : s.active_cols = []) :
    reduceStep A s = (s, false) := by
  have hrow : rowPass A s = (s, false) := by
    apply rowPass_neg
    rw [rowKeepOf_length, h1]
    simp
  have hcol : colPass A s = (s, false) := by
    apply colPass_neg
    rw [colKeepOf_nil A s h1]
    simp
  apply Prod.ext
  · rw [reduceStep_fst, hrow]
    show (colPass A s).1 = s
    rw [hcol]
  · rw [reduceStep_snd, hrow]
    show (false || (colPass A s).2) = false
    rw [hcol]
    rfl

/-- With fuel at least the total number of active indices the loop reaches a
fixed point of the iteration step. -/
theorem reduceLoop_settled (A : List (List ℚ)) :
    ∀ (fuel : Nat) (s : RState),
      s.active_rows.length + s.active_cols.length ≤ fuel →
      reduceStep A (reduceLoop A fuel s) = (reduceLoop A fuel s, false) := by
  intro fuel
  induction fuel with
  | zero =>
    intro s h
    have h1 : s.active_rows = [] := List.length_eq_zero.mp (by omega)
    have h2 : s.active_cols = [] := List.length_eq_zero.mp (by omega)
    show reduceStep A (reduceLoop A 0 s) = (reduceLoop A 0 s, false)
    unfold reduceLoop
    exact reduceStep_nil_actives A s h1 h2
  | succ fuel ih =>
    intro s h
    unfold reduceLoop
    by_cases hch : (reduceStep A s).2 = true
    · rw [if_pos hch]
      exact ih _ (by have := reduceStep_changed A s hch; omega)
    · rw [if_neg hch]
      have hf : (reduceStep A s).2 = false := Bool.eq_false_iff.mpr hch
      rw [reduceStep_not_changed A s hf]
      exact Prod.ext (reduceStep_not_changed A s hf) hf

theorem np_shape_eq_some {A : List (List ℚ)} {m n : Nat}
    (h : np_shape A = some (m, n)) :
    A.length = m ∧ (∀ r ∈ A, r.length = n) ∧ A ≠ [] := by
  cases A with
  | nil => simp [np_shape] at h
  | cons r rest =>
    simp only [np_shape] at h
    split at h
    · rename_i hall
      rw [Option.some.injEq, Prod.mk.injEq] at h
      obtain ⟨hm, hn⟩ := h
      refine ⟨hm, ?_, by simp⟩
      intro row hrow
      rw [← hn]
      simpa using List.all_eq_true.mp hall row hrow
    · simp at h

/-- Counting the `true` flags of a membership map counts the active indices. -/
theorem countP_id_map_range (a : List Nat) (m : Nat) (hnd : a.Nodup)
    (hb : ∀ i ∈ a, i < m) :
    ((List.range m).map fun i => decide (i ∈ a)).countP id = a.length := by
  rw [List.countP_map, List.countP_eq_length_filter]
  have hperm : ((List.range m).filter (id ∘ fun i => decide (i ∈ a))).Perm a := by
    refine (List.perm_ext_iff_of_nodup (List.Nodup.filter _ (List.nodup_range _)) hnd).mpr ?_
    intro x
    simp only [List.mem_filter, List.mem_range, Function.comp_apply, id_eq,
      decide_eq_true_eq]
    exact ⟨fun hx => hx.2, fun hx => ⟨hb x hx, hx⟩⟩
  exact hperm.length_eq

theorem true_mem_map_range {a : List Nat} {m : Nat} (i : Nat) (hi : i ∈ a)
    (hb : i < m) : true ∈ ((List.range m).map fun k => decide (k ∈ a)) := by
  refine List.mem_map.mpr ⟨i, List.mem_range.mpr hb, ?_⟩
  simp [hi]
/-! ### Strategy expansion: length, zeros, content, mass, nonnegativity -/

theorem expand_strategy_length : ∀ (flags : List Bool) (r : List ℚ),
    (expand_strategy flags r).length = flags.length := by
  intro flags
  induction flags with
  | nil => intro r; rfl
  | cons b flags ih =>
    intro r
    cases b
    · show (0 :: expand_strategy flags r).length = _
      simp [ih]
    · show (r.headD 0 :: expand_strategy flags r.tail).length = _
      simp [ih]

theorem expand_strategy_getD_false : ∀ (flags : List Bool) (r : List ℚ) (i : Nat),
    i < flags.length → flags.getD i false = false →
    (expand_strategy flags r).getD i 0 = 0 := by
  intro flags
  induction flags with
  | nil => intro r i h; simp at h
  | cons b flags ih =>
    intro r i hi hf
    cases b
    · cases i with
      | zero => rfl
      | succ i =>
        show (0 :: expand_strategy flags r).getD (i + 1) 0 = 0
        simp only [List.getD_cons_succ]
        refine ih r i ?_ (by simpa using hf)
        simp only [List.length_cons] at hi
        omega
    · cases i with
      | zero => simp at hf
      | succ i =>
        show (r.headD 0 :: expand_strategy flags r.tail).getD (i + 1) 0 = 0
        simp only [List.getD_cons_succ]
        refine ih r.tail i ?_ (by simpa using hf)
        simp only [List.length_cons] at hi
        omega

theorem expand_strategy_sum : ∀ (flags : List Bool) (r : List ℚ),
    r.length = flags.countP id → (expand_strategy flags r).sum = r.sum := by
  intro flags
  induction flags with
  | nil =>
    intro r h
    simp only [List.countP_nil, List.length_eq_zero] at h
    subst h
    rfl
  | cons b flags ih =>
    intro r h
    rw [List.countP_cons] at h
    cases b
    · simp only [id_eq, if_neg Bool.false_ne_true, Nat.add_zero] at h
      show (0 :: expand_strategy flags r).sum = r.sum
      rw [List.sum_cons, ih r h, zero_add]
    · simp only [id_eq, if_pos rfl] at h
      cases r with
      | nil => simp at h
      | cons x t =>
        show (List.headD (x :: t) 0 :: expand_strategy flags (List.tail (x :: t))).sum
          = (x :: t).sum
        simp only [List.headD_cons, List.tail_cons, List.sum_cons]
        rw [ih t (by simpa using h)]

theorem expand_strategy_content : ∀ (flags : List Bool) (r : List ℚ),
    r.length = flags.countP id →
    (((expand_strategy flags r).zip flags).filter fun p => p.2).map Prod.fst = r := by
  intro flags
  induction flags with
  | nil =>
    intro r h
    simp only [List.countP_nil, List.length_eq_zero] at h
    subst h
    rfl
  | cons b flags ih =>
    intro r h
    rw [List.countP_cons] at h
    cases b
    · simp only [id_eq, if_neg Bool.false_ne_true, Nat.add_zero] at h
      show ((((0 : ℚ) :: expand_strategy flags r).zip (false :: flags)).filter
        fun p => p.2).map Prod.fst = r
      rw [List.zip_cons_cons, List.filter_cons]
      simp only [if_neg Bool.false_ne_true]
      exact ih r h
    · simp only [id_eq, if_pos rfl] at h
      cases r with
      | nil => simp at h
      | cons x t =>
        show (((List.headD (x :: t) 0 :: expand_strategy flags (List.tail (x :: t))).zip
          (true :: flags)).filter fun p => p.2).map Prod.fst = x :: t
        simp only [List.headD_cons, List.tail_cons]
        rw [List.zip_cons_cons, List.filter_cons]
        simp only [if_true, List.map_cons]
        rw [ih t (by simpa using h)]

theorem expand_strategy_nonneg : ∀ (flags : List Bool) (r : List ℚ),
    (∀ x ∈ r, 0 ≤ x) → ∀ y ∈ expand_strategy flags r, 0 ≤ y := by
  intro flags
  induction flags with
  | nil => intro r _ y hy; simp [expand_strategy] at hy
  | cons b flags ih =>
    intro r hr y hy
    cases b
    · rcases List.mem_cons.mp hy with rfl | hy
      · exact le_refl 0
      · exact ih r hr y hy
    · rcases List.mem_cons.mp hy with rfl | hy
      · cases r with
        | nil => exact le_refl 0
        | cons x t => exact hr x (List.mem_cons_self x t)
      · refine ih r.tail ?_ y hy
        intro x hx
        exact hr x (List.mem_of_mem_tail hx)

/-! ### Dot products of probability vectors stay between entry bounds -/

theorem dotQ_nil_left (ys : List ℚ) : dotQ [] ys = 0 := rfl

theorem dotQ_comm : ∀ (xs ys : List ℚ), dotQ xs ys = dotQ ys xs := by
  intro xs
  induction xs with
  | nil => intro ys; cases ys <;> rfl
  | cons x xs ih =>
    intro ys
    cases ys with
    | nil => rfl
    | cons y ys =>
      show dotQ (x :: xs) (y :: ys) = dotQ (y :: ys) (x :: xs)
      unfold dotQ
      rw [List.zip_cons_cons, List.zip_cons_cons, List.map_cons, List.map_cons,
        List.sum_cons, List.sum_cons]
      have := ih ys
      unfold dotQ at this
      rw [this, mul_comm]

theorem dotQ_le (w v : List ℚ) (hi : ℚ) (hlen : w.length = v.length)
    (hw : ∀ x ∈ w, 0 ≤ x) (hv : ∀ y ∈ v, y ≤ hi) :
    dotQ w v ≤ hi * w.sum := by
  induction w generalizing v with
  | nil =>
    rw [dotQ_nil_left, List.sum_nil, mul_zero]
  | cons x xs ih =>
    cases v with
    | nil => simp at hlen
    | cons y ys =>
      show dotQ (x :: xs) (y :: ys) ≤ _
      unfold dotQ
      rw [List.zip_cons_cons, List.map_cons, List.sum_cons, List.sum_cons, mul_add]
      have h1 : x * y ≤ hi * x := by
        calc x * y ≤ x * hi :=
              mul_le_mul_of_nonneg_left (hv y (List.mem_cons_self y ys))
                (hw x (List.mem_cons_self x xs))
          _ = hi * x := mul_comm x hi
      have h2 : dotQ xs ys ≤ hi * xs.sum :=
        ih ys (by simpa using hlen) (fun a ha => hw a (List.mem_cons_of_mem x ha))
          fun a ha => hv a (List.mem_cons_of_mem y ha)
      unfold dotQ at h2
      exact add_le_add h1 h2

theorem dotQ_ge (w v : List ℚ) (lo : ℚ) (hlen : w.length = v.length)
    (hw : ∀ x ∈ w, 0 ≤ x) (hv : ∀ y ∈ v, lo ≤ y) :
    lo * w.sum ≤ dotQ w v := by
  induction w generalizing v with
  | nil =>
    rw [dotQ_nil_left, List.sum_nil, mul_zero]
  | cons x xs ih =>
    cases v with
    | nil => simp at hlen
    | cons y ys =>
      show _ ≤ dotQ (x :: xs) (y :: ys)
      unfold dotQ
      rw [List.zip_cons_cons, List.map_cons, List.sum_cons, List.sum_cons, mul_add]
      have h1 : lo * x ≤ x * y := by
        calc lo * x = x * lo := mul_comm lo x
          _ ≤ x * y :=
              mul_le_mul_of_nonneg_left (hv y (List.mem_cons_self y ys))
                (hw x (List.mem_cons_self x xs))
      have h2 : lo * xs.sum ≤ dotQ xs ys :=
        ih ys (by simpa using hlen) (fun a ha => hw a (List.mem_cons_of_mem x ha))
          fun a ha => hv a (List.mem_cons_of_mem y ha)
      unfold dotQ at h2
      exact add_le_add h1 h2

theorem foldr_min_le (l : List ℚ) (d x : ℚ) (h : x ∈ l) : l.foldr min d ≤ x := by
  induction l with
  | nil => simp at h
  | cons a t ih =>
    rcases List.mem_cons.mp h with rfl | hx
    · exact min_le_left _ _
    · exact le_trans (min_le_right _ _) (ih hx)

theorem le_foldr_max (l : List ℚ) (d x : ℚ) (h : x ∈ l) : x ≤ l.foldr max d := by
  induction l with
  | nil => simp at h
  | cons a t ih =>
    rcases List.mem_cons.mp h with rfl | hx
    · exact le_max_left _ _
    · exact le_trans (ih hx) (le_max_right _ _)

theorem entriesMin_le {M : List (List ℚ)} {r : List ℚ} {x : ℚ}
    (hr : r ∈ M) (hx : x ∈ r) : entriesMin M ≤ x :=
  foldr_min_le _ _ _ (List.mem_flatten_of_mem hr hx)

theorem le_entriesMax {M : List (List ℚ)} {r : List ℚ} {x : ℚ}
    (hr : r ∈ M) (hx : x ∈ r) : x ≤ entriesMax M :=
  le_foldr_max _ _ _ (List.mem_flatten_of_mem hr hx)

theorem matVec_length (M : List (List ℚ)) (y : List ℚ) :
    (matVec M y).length = M.length := by
  simp [matVec]

/-- The expected payoff of a probability-pair lies between the extreme entries
of the matrix. -/
theorem dot_matVec_bounds (M : List (List ℚ)) (x y : List ℚ) (n : Nat)
    (hrect : ∀ r ∈ M, r.length = n) (hx : x.length = M.length)
    (hxn : ∀ a ∈ x, 0 ≤ a) (hxs : x.sum = 1)
    (hy : y.length = n) (hyn : ∀ a ∈ y, 0 ≤ a) (hys : y.sum = 1) :
    entriesMin M ≤ dotQ x (matVec M y) ∧ dotQ x (matVec M y) ≤ entriesMax M := by
  have hbounds : ∀ z ∈ matVec M y, entriesMin M ≤ z ∧ z ≤ entriesMax M := by
    intro z hz
    obtain ⟨r, hrM, rfl⟩ := List.mem_map.mp hz
    rw [dotQ_comm]
    have hlen : y.length = r.length := by rw [hy, hrect r hrM]
    constructor
    · have := dotQ_ge y r (entriesMin M) hlen hyn fun v hv => entriesMin_le hrM hv
      rwa [hys, mul_one] at this
    · have := dotQ_le y r (entriesMax M) hlen hyn fun v hv => le_entriesMax hrM hv
      rwa [hys, mul_one] at this
  have hlen2 : x.length = (matVec M y).length := by rw [hx, matVec_length]
  constructor
  · have := dotQ_ge x (matVec M y) (entriesMin M) hlen2 hxn
      fun z hz => (hbounds z hz).1
    rwa [hxs, mul_one] at this
  · have := dotQ_le x (matVec M y) (entriesMax M) hlen2 hxn
      fun z hz => (hbounds z hz).2
    rwa [hxs, mul_one] at this

/-! ### Facts about the final loop state -/

theorem final_inv {A : List (List ℚ)} {m n : Nat}
    (h : np_shape A = some (m, n)) : Inv m n (reduceState A m n) := by
  obtain ⟨hm, _, hne⟩ := np_shape_eq_some h
  have hm0 : m ≠ 0 := by
    intro h0
    rw [h0, List.length_eq_zero] at hm
    exact hne hm
  exact reduceLoop_inv A (m + n) (initState m n) (initState_inv m n hm0)

theorem final_settled (A : List (List ℚ)) (m n : Nat) :
    reduceStep A (reduceState A m n) = (reduceState A m n, false) := by
  unfold reduceState
  exact reduceLoop_settled A (m + n) (initState m n) (by simp [initState])

/-- At a fixed point of the step, neither single pass would eliminate. -/
theorem settled_counts (A : List (List ℚ)) (sf : RState)
    (h : reduceStep A sf = (sf, false)) :
    ¬(rowKeepOf A sf).countP id < (rowKeepOf A sf).length ∧
    ¬(colKeepOf A sf).countP id < (colKeepOf A sf).length := by
  have h2 : (reduceStep A sf).2 = false := by rw [h]
  rw [reduceStep_snd, Bool.or_eq_false_iff] at h2
  obtain ⟨hr, hc⟩ := h2
  constructor
  · intro hcond
    rw [rowPass_pos A sf hcond] at hr
    simp at hr
  · intro hcond
    rw [rowPass_not_changed A sf hr] at hc
    rw [colPass_pos A sf hcond] at hc
    simp at hc

theorem iterated_eq {A : List (List ℚ)} {m n : Nat}
    (h : np_shape A = some (m, n)) :
    iterated_elimination_dominated_strategies A =
      some (submatrix A (reduceState A m n).active_rows (reduceState A m n).active_cols,
            (reduceState A m n).row_flags, (reduceState A m n).col_flags) := by
  unfold iterated_elimination_dominated_strategies
  rw [h]

theorem range_map_getD_self (row : List ℚ) (n : Nat) (h : row.length = n) :
    ((List.range n).map fun c => row.getD c 0) = row := by
  apply List.ext_getElem (by simp [h])
  intro i h1 h2
  rw [List.getElem_map, List.getElem_range, ← List.getD_eq_getElem _ 0]

theorem submatrix_range_self (M : List (List ℚ)) (n : Nat)
    (hrect : ∀ r ∈ M, r.length = n) :
    submatrix M (List.range M.length) (List.range n) = M := by
  unfold submatrix
  apply List.ext_getElem (by simp)
  intro i h1 h2
  rw [List.getElem_map, List.getElem_range]
  have hgetD : M.getD i [] = M[i] := List.getD_eq_getElem M [] h2
  rw [hgetD]
  exact (range_map_getD_self M[i] n (hrect M[i] (List.getElem_mem h2))).symm ▸
    range_map_getD_self M[i] n (hrect M[i] (List.getElem_mem h2))

theorem np_shape_of_rect (M : List (List ℚ)) (n : Nat) (hne : M ≠ [])
    (hrect : ∀ r ∈ M, r.length = n) : np_shape M = some (M.length, n) := by
  cases M with
  | nil => exact absurd rfl hne
  | cons r rest =>
    simp only [np_shape]
    rw [if_pos]
    · rw [hrect r (List.mem_cons_self r rest)]
    · rw [List.all_eq_true]
      intro row hrow
      simp only [decide_eq_true_eq]
      rw [hrect row hrow, hrect r (List.mem_cons_self r rest)]

theorem reduceLoop_of_settled (A : List (List ℚ)) (s : RState)
    (h : reduceStep A s = (s, false)) :
    ∀ (fuel : Nat), reduceLoop A fuel s = s := by
  intro fuel
  induction fuel with
  | zero => rfl
  | succ fuel ih =>
    unfold reduceLoop
    have h2 : (reduceStep A s).2 = false := by rw [h]
    rw [if_neg (by rw [h2]; exact Bool.false_ne_true)]
    rw [h]

/-- The reduced matrix returned by the pipeline. -/
theorem reduced_of_shape {A R : List (List ℚ)} {m n : Nat} {rf cf : List Bool}
    (hsh : np_shape A = some (m, n))
    (h : iterated_elimination_dominated_strategies A = some (R, rf, cf)) :
    R = submatrix A (reduceState A m n).active_rows (reduceState A m n).active_cols ∧
    rf = (reduceState A m n).row_flags ∧ cf = (reduceState A m n).col_flags := by
  rw [iterated_eq hsh] at h
  rw [Option.some.injEq, Prod.mk.injEq, Prod.mk.injEq] at h
  exact ⟨h.1.symm, h.2.1.symm, h.2.2.symm⟩

/-! ### Remaining helper lemmas for the claim theorems -/

theorem colWeaklyDominatedBy_iff {c : Nat} {r s : List ℚ}
    (hr : r.length = c) (hs : s.length = c) :
    colWeaklyDominatedBy r s = true ↔
      (∀ k, k < c → r.getD k 0 ≥ s.getD k 0) ∧
      ∃ k, k < c ∧ r.getD k 0 > s.getD k 0 := by
  unfold colWeaklyDominatedBy
  rw [Bool.and_eq_true,
    zipAll_iff (fun a b => decide (b ≤ a)) r s (by omega),
    zipAny_iff (fun a b => decide (b < a)) r s (by omega)]
  simp [hr, ge_iff_le, gt_iff_lt]

theorem colWeaklyDominatedBy_irrefl (r : List ℚ) :
    colWeaklyDominatedBy r r = false := by
  have hany : ((r.zip r).any fun q => decide (q.2 < q.1)) = false := by
    rw [List.any_eq_false]
    intro q hq
    have := mem_zip_self hq
    simp [this]
  unfold colWeaklyDominatedBy
  rw [hany, Bool.and_false]

theorem getCol_length (M : List (List ℚ)) (j : Nat) :
    (getCol M j).length = M.length := by
  simp [getCol]

/-! ## Claim theorems -/

/-- C9: transposition duality of the two single-pass checks — for every matrix
`M`, the keep-vector of the column check on `M` equals the keep-vector of the
row check on the negated transpose of `M`. -/
theorem C9_col_check_eq_row_check_on_neg_transpose (M : List (List ℚ)) :
    eliminate_weakly_dominated_cols M =
      eliminate_weakly_dominated_rows (negTranspose M) :=
  eliminate_cols_eq_rows_negTranspose M

/-- C10: strategy expansion preserves content and mass — for a reduced vector
whose length equals the number of `true` flags, the expanded vector has the
flag vector's length, reads back the reduced vector at the `true` positions in
order, is zero at `false` positions, and has the same total sum. -/
theorem C10_expansion_preserves_content_and_mass (flags : List Bool) (r : List ℚ)
    (h : r.length = flags.countP id) :
    (expand_strategy flags r).length = flags.length ∧
    (((expand_strategy flags r).zip flags).filter fun p => p.2).map Prod.fst = r ∧
    (∀ i, i < flags.length → flags.getD i false = false →
      (expand_strategy flags r).getD i 0 = 0) ∧
    (expand_strategy flags r).sum = r.sum :=
  ⟨expand_strategy_length flags r, expand_strategy_content flags r h,
   fun i hi hf => expand_strategy_getD_false flags r i hi hf,
   expand_strategy_sum flags r h⟩

theorem C10_witness :
    ([(2 : ℚ), 3].length = [true, false, true].countP id) ∧
    ((expand_strategy [true, false, true] [(2 : ℚ), 3]).length = [true, false, true].length ∧
    (((expand_strategy [true, false, true] [(2 : ℚ), 3]).zip [true, false, true]).filter
      fun p => p.2).map Prod.fst = [(2 : ℚ), 3] ∧
    (∀ i, i < [true, false, true].length → [true, false, true].getD i false = false →
      (expand_strategy [true, false, true] [(2 : ℚ), 3]).getD i 0 = 0) ∧
    (expand_strategy [true, false, true] [(2 : ℚ), 3]).sum = [(2 : ℚ), 3].sum) :=
  ⟨by decide, C10_expansion_preserves_content_and_mass [true, false, true] [(2 : ℚ), 3]
    (by decide)⟩

/-- C7 counterexample: the claim says an empty matrix makes `reduce` fail fast
before any elimination, but the code accepts the empty `1 × 0` matrix `[[]]`
(its numpy shape `(1, 0)` unpacks fine) and returns a successful result. -/
theorem C7_counterexample_empty_matrix_not_rejected :
    iterated_elimination_dominated_strategies [[]] = some ([[]], [true], []) := by
  decide

/-- C7 (amended): a non-rectangular matrix or a matrix with no rows fails fast
(shape unpacking raises before any elimination); a matrix with rows but zero
columns is not rejected. -/
theorem C7_malformed_input_fails_fast (A : List (List ℚ))
    (lp : List (List ℚ) → Option (List ℚ × ℚ))
    (h : A = [] ∨ ∃ r ∈ A, r.length ≠ (A.headD []).length) :
    iterated_elimination_dominated_strategies A = none ∧
    chaterjee_epa_algorithm lp A = none := by
  have hsh : np_shape A = none := by
    cases A with
    | nil => rfl
    | cons r rest =>
      rcases h with h | ⟨row, hrow, hne⟩
      · simp at h
      · simp only [np_shape]
        rw [if_neg]
        intro hall
        have := List.all_eq_true.mp hall row hrow
        simp only [decide_eq_true_eq] at this
        exact hne (by simpa using this)
  have h1 : iterated_elimination_dominated_strategies A = none := by
    unfold iterated_elimination_dominated_strategies
    rw [hsh]
  refine ⟨h1, ?_⟩
  unfold chaterjee_epa_algorithm
  rw [h1]

theorem C7_witness :
    (([[(1 : ℚ)], [2, 3]] = ([] : List (List ℚ)) ∨
      ∃ r ∈ [[(1 : ℚ)], [2, 3]], r.length ≠ ([[(1 : ℚ)], [2, 3]].headD []).length) ∧
    (iterated_elimination_dominated_strategies [[(1 : ℚ)], [2, 3]] = none ∧
      chaterjee_epa_algorithm (fun _ => none) [[(1 : ℚ)], [2, 3]] = none)) :=
  ⟨Or.inr ⟨[2, 3], by decide, by decide⟩,
   C7_malformed_input_fails_fast [[(1 : ℚ)], [2, 3]] (fun _ => none)
     (Or.inr ⟨[2, 3], by decide, by decide⟩)⟩

/-- C5: the single-pass row check removes row `i` iff some other row dominates
it with entrywise `≤` and at least one strict inequality; the column check is
the mirrored rule with `≥`; and a strategy equal to another is never weakly
dominated by it. -/
theorem C5_single_pass_dominance_rule (M : List (List ℚ)) (n : Nat)
    (hrect : ∀ row ∈ M, row.length = n) (hne : M ≠ []) :
    (∀ i, i < M.length →
      ((eliminate_weakly_dominated_rows M).getD i false = false ↔
        ∃ j, j < M.length ∧ j ≠ i ∧
          (∀ k, k < n → (M.getD i []).getD k 0 ≤ (M.getD j []).getD k 0) ∧
          ∃ k, k < n ∧ (M.getD i []).getD k 0 < (M.getD j []).getD k 0)) ∧
    (∀ q, q < n →
      ((eliminate_weakly_dominated_cols M).getD q false = false ↔
        ∃ k2, k2 < n ∧ k2 ≠ q ∧
          (∀ i2, i2 < M.length → (getCol M q).getD i2 0 ≥ (getCol M k2).getD i2 0) ∧
          ∃ i2, i2 < M.length ∧ (getCol M q).getD i2 0 > (getCol M k2).getD i2 0)) ∧
    (∀ r s : List ℚ, r = s →
      weaklyDominatedBy r s = false ∧ colWeaklyDominatedBy r s = false) := by
  have hb : ∀ b : Bool, ((!b) = false ↔ b = true) := by decide
  have hgetDmem : ∀ i, i < M.length → M.getD i [] ∈ M ∧ (M.getD i []).length = n := by
    intro i hi
    rw [List.getD_eq_getElem _ _ hi]
    exact ⟨List.getElem_mem hi, hrect _ (List.getElem_mem hi)⟩
  have hn0 : (M.headD []).length = n := by
    cases M with
    | nil => exact absurd rfl hne
    | cons r rest => exact hrect r (List.mem_cons_self r rest)
  refine ⟨?_, ?_, ?_⟩
  · intro i hi
    unfold eliminate_weakly_dominated_rows
    rw [getD_range_map _ _ _ _ hi, hb, List.any_eq_true]
    constructor
    · rintro ⟨j, hj, hf⟩
      rw [List.mem_range] at hj
      rw [Bool.and_eq_true, decide_eq_true_eq] at hf
      obtain ⟨hji, hdom⟩ := hf
      rw [weaklyDominatedBy_iff (hgetDmem i hi).2 (hgetDmem j hj).2] at hdom
      exact ⟨j, hj, hji, hdom.1, hdom.2⟩
    · rintro ⟨j, hj, hji, hle, hlt⟩
      refine ⟨j, List.mem_range.mpr hj, ?_⟩
      rw [Bool.and_eq_true, decide_eq_true_eq]
      exact ⟨hji, (weaklyDominatedBy_iff (hgetDmem i hi).2 (hgetDmem j hj).2).mpr
        ⟨hle, hlt⟩⟩
  · intro q hq
    unfold eliminate_weakly_dominated_cols
    rw [hn0, getD_range_map _ _ _ _ hq, hb, List.any_eq_true]
    constructor
    · rintro ⟨k2, hk2, hf⟩
      rw [List.mem_range] at hk2
      rw [Bool.and_eq_true, decide_eq_true_eq] at hf
      obtain ⟨hkq, hdom⟩ := hf
      rw [colWeaklyDominatedBy_iff (getCol_length M q) (getCol_length M k2)] at hdom
      exact ⟨k2, hk2, hkq, hdom.1, hdom.2⟩
    · rintro ⟨k2, hk2, hkq, hge, hgt⟩
      refine ⟨k2, List.mem_range.mpr hk2, ?_⟩
      rw [Bool.and_eq_true, decide_eq_true_eq]
      exact ⟨hkq, (colWeaklyDominatedBy_iff (getCol_length M q)
        (getCol_length M k2)).mpr ⟨hge, hgt⟩⟩
  · rintro r s rfl
    exact ⟨weaklyDominatedBy_irrefl r, colWeaklyDominatedBy_irrefl r⟩

theorem C5_witness :
    ((∀ row ∈ [[(1 : ℚ), 2], [3, 4]], row.length = 2) ∧ [[(1 : ℚ), 2], [3, 4]] ≠ []) ∧
    ((∀ i, i < [[(1 : ℚ), 2], [3, 4]].length →
      ((eliminate_weakly_dominated_rows [[(1 : ℚ), 2], [3, 4]]).getD i false = false ↔
        ∃ j, j < [[(1 : ℚ), 2], [3, 4]].length ∧ j ≠ i ∧
          (∀ k, k < 2 → ([[(1 : ℚ), 2], [3, 4]].getD i []).getD k 0 ≤
            ([[(1 : ℚ), 2], [3, 4]].getD j []).getD k 0) ∧
          ∃ k, k < 2 ∧ ([[(1 : ℚ), 2], [3, 4]].getD i []).getD k 0 <
            ([[(1 : ℚ), 2], [3, 4]].getD j []).getD k 0)) ∧
    (∀ q, q < 2 →
      ((eliminate_weakly_dominated_cols [[(1 : ℚ), 2], [3, 4]]).getD q false = false ↔
        ∃ k2, k2 < 2 ∧ k2 ≠ q ∧
          (∀ i2, i2 < [[(1 : ℚ), 2], [3, 4]].length →
            (getCol [[(1 : ℚ), 2], [3, 4]] q).getD i2 0 ≥
            (getCol [[(1 : ℚ), 2], [3, 4]] k2).getD i2 0) ∧
          ∃ i2, i2 < [[(1 : ℚ), 2], [3, 4]].length ∧
            (getCol [[(1 : ℚ), 2], [3, 4]] q).getD i2 0 >
            (getCol [[(1 : ℚ), 2], [3, 4]] k2).getD i2 0)) ∧
    (∀ r s : List ℚ, r = s →
      weaklyDominatedBy r s = false ∧ colWeaklyDominatedBy r s = false)) :=
  ⟨⟨by decide, by decide⟩,
   C5_single_pass_dominance_rule [[(1 : ℚ), 2], [3, 4]] 2 (by decide) (by decide)⟩

/-- C4: after the iterated reduction terminates on a non-empty matrix, both
returned keep-flag vectors contain at least one `true` entry. -/
theorem C4_flags_have_a_true_entry {A : List (List ℚ)} {m n : Nat}
    {R : List (List ℚ)} {rf cf : List Bool}
    (hsh : np_shape A = some (m, n)) (hn : 1 ≤ n)
    (hred : iterated_elimination_dominated_strategies A = some (R, rf, cf)) :
    true ∈ rf ∧ true ∈ cf := by
  obtain ⟨_, hrf, hcf⟩ := reduced_of_shape hsh hred
  obtain ⟨hrfeq, hcfeq, _, _, hbr, hbc, hner, hnec⟩ := final_inv hsh
  subst hrf
  subst hcf
  constructor
  · obtain ⟨i, hi⟩ := List.exists_mem_of_ne_nil _ hner
    rw [hrfeq]
    exact true_mem_map_range i hi (hbr i hi)
  · obtain ⟨j, hj⟩ := List.exists_mem_of_ne_nil _ (hnec (by omega))
    rw [hcfeq]
    exact true_mem_map_range j hj (hbc j hj)

theorem C4_witness :
    (np_shape [[(1 : ℚ), 0], [0, 1]] = some (2, 2) ∧ 1 ≤ 2 ∧
      iterated_elimination_dominated_strategies [[(1 : ℚ), 0], [0, 1]] =
        some ([[(1 : ℚ), 0], [0, 1]], [true, true], [true, true])) ∧
    (true ∈ [true, true] ∧ true ∈ [true, true]) :=
  ⟨⟨by decide, by decide, by decide⟩,
   @C4_flags_have_a_true_entry [[(1 : ℚ), 0], [0, 1]] 2 2 [[(1 : ℚ), 0], [0, 1]]
     [true, true] [true, true] (by decide) (by decide) (by decide)⟩

/-- C6: the iterated-reduction loop terminates within `m + n` iterations —
with fuel `m + n` the loop reaches a state the step leaves unchanged, every
iteration that reports a change strictly shrinks the total active count, and
both final active counts are at least 1. -/
theorem C6_loop_terminates_within_m_plus_n {A : List (List ℚ)} {m n : Nat}
    (hsh : np_shape A = some (m, n)) (hn : 1 ≤ n) :
    reduceStep A (reduceLoop A (m + n) (initState m n)) =
      (reduceLoop A (m + n) (initState m n), false) ∧
    (∀ s : RState, (reduceStep A s).2 = true →
      (reduceStep A s).1.active_rows.length + (reduceStep A s).1.active_cols.length <
        s.active_rows.length + s.active_cols.length) ∧
    1 ≤ (reduceLoop A (m + n) (initState m n)).active_rows.length ∧
    1 ≤ (reduceLoop A (m + n) (initState m n)).active_cols.length := by
  obtain ⟨_, _, _, _, _, _, hner, hnec⟩ := final_inv hsh
  refine ⟨final_settled A m n, fun s hs => reduceStep_changed A s hs, ?_, ?_⟩
  · exact List.length_pos.mpr hner
  · exact List.length_pos.mpr (hnec (by omega))

theorem C6_witness :
    (np_shape [[(1 : ℚ), 0], [0, 1]] = some (2, 2) ∧ 1 ≤ 2) ∧
    (reduceStep [[(1 : ℚ), 0], [0, 1]]
        (reduceLoop [[(1 : ℚ), 0], [0, 1]] (2 + 2) (initState 2 2)) =
      (reduceLoop [[(1 : ℚ), 0], [0, 1]] (2 + 2) (initState 2 2), false) ∧
    (∀ s : RState, (reduceStep [[(1 : ℚ), 0], [0, 1]] s).2 = true →
      (reduceStep [[(1 : ℚ), 0], [0, 1]] s).1.active_rows.length +
          (reduceStep [[(1 : ℚ), 0], [0, 1]] s).1.active_cols.length <
        s.active_rows.length + s.active_cols.length) ∧
    1 ≤ (reduceLoop [[(1 : ℚ), 0], [0, 1]] (2 + 2) (initState 2 2)).active_rows.length ∧
    1 ≤ (reduceLoop [[(1 : ℚ), 0], [0, 1]] (2 + 2) (initState 2 2)).active_cols.length) :=
  ⟨⟨by decide, by decide⟩,
   @C6_loop_terminates_within_m_plus_n [[(1 : ℚ), 0], [0, 1]] 2 2 (by decide) (by decide)⟩

/-- C8: the reduction is idempotent — running it again on the reduced matrix
it returned eliminates nothing: all keep flags of the second run are `true`
and the matrix comes back unchanged. -/
theorem C8_reduce_is_idempotent {A R : List (List ℚ)} {rf cf : List Bool}
    (hred : iterated_elimination_dominated_strategies A = some (R, rf, cf)) :
    iterated_elimination_dominated_strategies R =
      some (R, List.replicate R.length true,
        List.replicate (R.headD []).length true) := by
  rcases hsh : np_shape A with _ | ⟨m, n⟩
  · unfold iterated_elimination_dominated_strategies at hred
    rw [hsh] at hred
    simp at hred
  · obtain ⟨hR, -, -⟩ := reduced_of_shape hsh hred
    obtain ⟨-, -, -, -, -, -, hner, -⟩ := final_inv hsh
    have hRrect : ∀ r ∈ R, r.length = (reduceState A m n).active_cols.length := by
      rw [hR]; exact submatrix_rect A _ _
    have hRne : R ≠ [] := by rw [hR]; exact submatrix_ne_nil A _ _ hner
    have hshR : np_shape R = some (R.length, (reduceState A m n).active_cols.length) :=
      np_shape_of_rect R _ hRne hRrect
    have hset := settled_counts A (reduceState A m n) (final_settled A m n)
    have har : (initState R.length (reduceState A m n).active_cols.length).active_rows =
        List.range R.length := rfl
    have hac : (initState R.length (reduceState A m n).active_cols.length).active_cols =
        List.range (reduceState A m n).active_cols.length := rfl
    have e1 : rowKeepOf R (initState R.length (reduceState A m n).active_cols.length) =
        rowKeepOf A (reduceState A m n) := by
      unfold rowKeepOf
      rw [har, hac, submatrix_range_self R _ hRrect, hR]
    have e2 : colKeepOf R (initState R.length (reduceState A m n).active_cols.length) =
        colKeepOf A (reduceState A m n) := by
      unfold colKeepOf
      rw [har, hac, submatrix_range_self R _ hRrect, hR]
    have hrow : rowPass R (initState R.length (reduceState A m n).active_cols.length) =
        (initState R.length (reduceState A m n).active_cols.length, false) :=
      rowPass_neg _ _ (by rw [e1]; exact hset.1)
    have hcol : colPass R (initState R.length (reduceState A m n).active_cols.length) =
        (initState R.length (reduceState A m n).active_cols.length, false) :=
      colPass_neg _ _ (by rw [e2]; exact hset.2)
    have hstep : reduceStep R (initState R.length (reduceState A m n).active_cols.length) =
        (initState R.length (reduceState A m n).active_cols.length, false) := by
      apply Prod.ext
      · rw [reduceStep_fst, hrow]
        show (colPass R _).1 = _
        rw [hcol]
      · rw [reduceStep_snd, hrow]
        show (false || (colPass R _).2) = false
        rw [hcol]
        rfl
    rw [iterated_eq hshR]
    have hstate : reduceState R R.length (reduceState A m n).active_cols.length =
        initState R.length (reduceState A m n).active_cols.length := by
      unfold reduceState
      exact reduceLoop_of_settled R _ hstep _
    rw [hstate, har, hac, submatrix_range_self R _ hRrect]
    have hh : (R.headD []).length = (reduceState A m n).active_cols.length := by
      rw [hR]; exact submatrix_headD_length A _ _ hner
    rw [hh]
    rfl

theorem C8_witness :
    (iterated_elimination_dominated_strategies [[(1 : ℚ), 0], [0, 1]] =
      some ([[(1 : ℚ), 0], [0, 1]], [true, true], [true, true])) ∧
    iterated_elimination_dominated_strategies [[(1 : ℚ), 0], [0, 1]] =
      some ([[(1 : ℚ), 0], [0, 1]], List.replicate [[(1 : ℚ), 0], [0, 1]].length true,
        List.replicate ([[(1 : ℚ), 0], [0, 1]].headD []).length true) :=
  ⟨by decide, @C8_reduce_is_idempotent [[(1 : ℚ), 0], [0, 1]] [[(1 : ℚ), 0], [0, 1]]
    [true, true] [true, true] (by decide)⟩

/-! ### Unfolding the orchestrator's output -/

theorem chaterjee_output {lp : List (List ℚ) → Option (List ℚ × ℚ)}
    {A R : List (List ℚ)} {rf cf : List Bool} {p : List ℚ} {v : ℚ}
    {row col : List ℚ} {gv : ℚ}
    (hred : iterated_elimination_dominated_strategies A = some (R, rf, cf))
    (hlp : lp R = some (p, v))
    (hout : chaterjee_epa_algorithm lp A = some (row, col, gv)) :
    row = expand_strategy rf p ∧
    col = expand_strategy cf (List.replicate (cf.countP id) (1 / (cf.countP id : ℚ))) ∧
    gv = dotQ row (matVec A col) := by
  simp only [chaterjee_epa_algorithm, hred, hlp] at hout
  rw [Option.some.injEq, Prod.mk.injEq, Prod.mk.injEq] at hout
  obtain ⟨h1, h2, h3⟩ := hout
  subst h1
  subst h2
  exact ⟨rfl, rfl, h3.symm⟩

theorem flags_facts {A : List (List ℚ)} {m n : Nat} {R : List (List ℚ)}
    {rf cf : List Bool}
    (hsh : np_shape A = some (m, n))
    (hred : iterated_elimination_dominated_strategies A = some (R, rf, cf)) :
    rf.length = m ∧ cf.length = n ∧ rf.countP id = R.length ∧
      cf.countP id = (reduceState A m n).active_cols.length := by
  obtain ⟨hR, hrf, hcf⟩ := reduced_of_shape hsh hred
  obtain ⟨hrfeq, hcfeq, hndr, hndc, hbr, hbc, hner, hnec⟩ := final_inv hsh
  subst hrf
  subst hcf
  refine ⟨?_, ?_, ?_, ?_⟩
  · rw [hrfeq]; simp
  · rw [hcfeq]; simp
  · rw [hrfeq, countP_id_map_range _ _ hndr hbr, hR, submatrix_length]
  · rw [hcfeq, countP_id_map_range _ _ hndc hbc]

theorem replicate_uniform_sum (k : Nat) (hk : k ≠ 0) :
    (List.replicate k ((1 : ℚ) / (k : ℚ))).sum = 1 := by
  rw [List.sum_replicate, nsmul_eq_mul, mul_one_div,
    div_self (Nat.cast_ne_zero.mpr hk)]

theorem surviving_cols_pos {A : List (List ℚ)} {m n : Nat} {R : List (List ℚ)}
    {rf cf : List Bool}
    (hsh : np_shape A = some (m, n)) (hn : 1 ≤ n)
    (hred : iterated_elimination_dominated_strategies A = some (R, rf, cf)) :
    cf.countP id ≠ 0 := by
  obtain ⟨-, -, -, hccount⟩ := flags_facts hsh hred
  obtain ⟨-, -, -, -, -, -, -, hnec⟩ := final_inv hsh
  rw [hccount]
  have := List.length_pos.mpr (hnec (by omega))
  omega

/-- Concrete evaluation of the pipeline on the 1-by-1 matrix used as witness input. -/
theorem chaterjee_eval_one :
    chaterjee_epa_algorithm (fun _ => some ([(1 : ℚ)], 1)) [[(1 : ℚ)]] =
      some ([(1 : ℚ)], [(1 : ℚ)], 1) := by
  have h : iterated_elimination_dominated_strategies [[(1 : ℚ)]] =
      some ([[(1 : ℚ)]], [true], [true]) := by decide
  simp only [chaterjee_epa_algorithm, h]
  norm_num [expand_strategy, dotQ, matVec]

theorem sum_one_eval : [(1 : ℚ)].sum = 1 := by simp

theorem abs_sum_one_eval : |[(1 : ℚ)].sum - 1| ≤ 1 / 1000000 := by norm_num

/-- C2: the full strategies have the original dimensions and indices whose
keep-flag is `false` carry exactly zero probability. -/
theorem C2_dimension_consistency
    (lp : List (List ℚ) → Option (List ℚ × ℚ))
    (A R : List (List ℚ)) (m n : Nat) (rf cf : List Bool)
    (p : List ℚ) (v : ℚ) (row col : List ℚ) (gv : ℚ)
    (hsh : np_shape A = some (m, n))
    (hred : iterated_elimination_dominated_strategies A = some (R, rf, cf))
    (hlp : lp R = some (p, v))
    (hout : chaterjee_epa_algorithm lp A = some (row, col, gv)) :
    row.length = m ∧ col.length = n ∧
    (∀ i, i < m → rf.getD i false = false → row.getD i 0 = 0) ∧
    (∀ j, j < n → cf.getD j false = false → col.getD j 0 = 0) := by
  obtain ⟨hrow, hcol, -⟩ := chaterjee_output hred hlp hout
  obtain ⟨hrfl, hcfl, -, -⟩ := flags_facts hsh hred
  subst hrow
  subst hcol
  refine ⟨?_, ?_, ?_, ?_⟩
  · rw [expand_strategy_length, hrfl]
  · rw [expand_strategy_length, hcfl]
  · intro i hi hf
    exact expand_strategy_getD_false rf p i (by rw [hrfl]; exact hi) hf
  · intro j hj hf
    exact expand_strategy_getD_false cf _ j (by rw [hcfl]; exact hj) hf

theorem C2_witness :
    (np_shape [[(1 : ℚ)]] = some (1, 1) ∧
     iterated_elimination_dominated_strategies [[(1 : ℚ)]] =
       some ([[(1 : ℚ)]], [true], [true]) ∧
     (fun _ : List (List ℚ) => some ([(1 : ℚ)], (1 : ℚ))) [[(1 : ℚ)]] =
       some ([(1 : ℚ)], (1 : ℚ)) ∧
     chaterjee_epa_algorithm (fun _ => some ([(1 : ℚ)], 1)) [[(1 : ℚ)]] =
       some ([(1 : ℚ)], [(1 : ℚ)], 1)) ∧
    ([(1 : ℚ)].length = 1 ∧ [(1 : ℚ)].length = 1 ∧
     (∀ i, i < 1 → [true].getD i false = false → [(1 : ℚ)].getD i 0 = 0) ∧
     (∀ j, j < 1 → [true].getD j false = false → [(1 : ℚ)].getD j 0 = 0)) :=
  ⟨⟨by decide, by decide, rfl, chaterjee_eval_one⟩,
   C2_dimension_consistency (fun _ => some ([(1 : ℚ)], 1)) [[(1 : ℚ)]] [[(1 : ℚ)]]
     1 1 [true] [true] [(1 : ℚ)] 1 [(1 : ℚ)] [(1 : ℚ)] 1
     (by decide) (by decide) rfl chaterjee_eval_one⟩

/-- C1: whenever the LP solve succeeds (returning a feasible point, as a
successful `linprog` call does), both full strategies are entrywise
nonnegative and sum to 1 within `1e-6`. -/
theorem C1_strategies_are_distributions
    (lp : List (List ℚ) → Option (List ℚ × ℚ))
    (A R : List (List ℚ)) (m n : Nat) (rf cf : List Bool)
    (p : List ℚ) (v : ℚ) (row col : List ℚ) (gv : ℚ)
    (hsh : np_shape A = some (m, n)) (hn : 1 ≤ n)
    (hred : iterated_elimination_dominated_strategies A = some (R, rf, cf))
    (hlp : lp R = some (p, v))
    (hplen : p.length = R.length) (hp0 : ∀ x ∈ p, 0 ≤ x)
    (hp1 : |p.sum - 1| ≤ 1 / 1000000)
    (hout : chaterjee_epa_algorithm lp A = some (row, col, gv)) :
    row.length = m ∧ col.length = n ∧
    (∀ x ∈ row, 0 ≤ x) ∧ (∀ x ∈ col, 0 ≤ x) ∧
    |row.sum - 1| ≤ 1 / 1000000 ∧ |col.sum - 1| ≤ 1 / 1000000 := by
  obtain ⟨hrow, hcol, -⟩ := chaterjee_output hred hlp hout
  obtain ⟨hrfl, hcfl, hcount, -⟩ := flags_facts hsh hred
  have hkpos : cf.countP id ≠ 0 := surviving_cols_pos hsh hn hred
  subst hrow
  subst hcol
  refine ⟨?_, ?_, ?_, ?_, ?_, ?_⟩
  · rw [expand_strategy_length, hrfl]
  · rw [expand_strategy_length, hcfl]
  · exact expand_strategy_nonneg rf p hp0
  · refine expand_strategy_nonneg cf _ ?_
    intro x hx
    rw [List.eq_of_mem_replicate hx]
    positivity
  · rw [expand_strategy_sum rf p (by rw [hplen, hcount])]
    exact hp1
  · rw [expand_strategy_sum cf _ (by simp),
      replicate_uniform_sum _ hkpos]
    norm_num

theorem C1_witness :
    (np_shape [[(1 : ℚ)]] = some (1, 1) ∧ 1 ≤ 1 ∧
     iterated_elimination_dominated_strategies [[(1 : ℚ)]] =
       some ([[(1 : ℚ)]], [true], [true]) ∧
     (fun _ : List (List ℚ) => some ([(1 : ℚ)], (1 : ℚ))) [[(1 : ℚ)]] =
       some ([(1 : ℚ)], (1 : ℚ)) ∧
     [(1 : ℚ)].length = [[(1 : ℚ)]].length ∧ (∀ x ∈ [(1 : ℚ)], 0 ≤ x) ∧
     |[(1 : ℚ)].sum - 1| ≤ 1 / 1000000 ∧
     chaterjee_epa_algorithm (fun _ => some ([(1 : ℚ)], 1)) [[(1 : ℚ)]] =
       some ([(1 : ℚ)], [(1 : ℚ)], 1)) ∧
    ([(1 : ℚ)].length = 1 ∧ [(1 : ℚ)].length = 1 ∧
     (∀ x ∈ [(1 : ℚ)], 0 ≤ x) ∧ (∀ x ∈ [(1 : ℚ)], 0 ≤ x) ∧
     |[(1 : ℚ)].sum - 1| ≤ 1 / 1000000 ∧ |[(1 : ℚ)].sum - 1| ≤ 1 / 1000000) :=
  ⟨⟨by decide, by decide, by decide, rfl, by decide, by decide, abs_sum_one_eval,
    chaterjee_eval_one⟩,
   C1_strategies_are_distributions (fun _ => some ([(1 : ℚ)], 1)) [[(1 : ℚ)]]
     [[(1 : ℚ)]] 1 1 [true] [true] [(1 : ℚ)] 1 [(1 : ℚ)] [(1 : ℚ)] 1
     (by decide) (by decide) (by decide) rfl (by decide) (by decide)
     abs_sum_one_eval chaterjee_eval_one⟩

/-- C3: when the LP solve succeeds and returns a probability distribution, the
game value `fullRow . (A . fullCol)` lies between the least and greatest entry
of the original matrix. -/
theorem C3_game_value_between_min_and_max
    (lp : List (List ℚ) → Option (List ℚ × ℚ))
    (A R : List (List ℚ)) (m n : Nat) (rf cf : List Bool)
    (p : List ℚ) (v : ℚ) (row col : List ℚ) (gv : ℚ)
    (hsh : np_shape A = some (m, n)) (hn : 1 ≤ n)
    (hred : iterated_elimination_dominated_strategies A = some (R, rf, cf))
    (hlp : lp R = some (p, v))
    (hplen : p.length = R.length) (hp0 : ∀ x ∈ p, 0 ≤ x) (hp1 : p.sum = 1)
    (hout : chaterjee_epa_algorithm lp A = some (row, col, gv)) :
    gv = dotQ row (matVec A col) ∧
    entriesMin A ≤ gv ∧ gv ≤ entriesMax A := by
  obtain ⟨hrow, hcol, hgv⟩ := chaterjee_output hred hlp hout
  obtain ⟨hrfl, hcfl, hcount, -⟩ := flags_facts hsh hred
  have hkpos : cf.countP id ≠ 0 := surviving_cols_pos hsh hn hred
  obtain ⟨hAlen, hArect, -⟩ := np_shape_eq_some hsh
  have hrowlen : row.length = A.length := by
    rw [hrow, expand_strategy_length, hrfl, hAlen]
  have hcollen : col.length = n := by
    rw [hcol, expand_strategy_length, hcfl]
  have hrownn : ∀ x ∈ row, 0 ≤ x := by
    rw [hrow]
    exact expand_strategy_nonneg rf p hp0
  have hcolnn : ∀ x ∈ col, 0 ≤ x := by
    rw [hcol]
    refine expand_strategy_nonneg cf _ ?_
    intro x hx
    rw [List.eq_of_mem_replicate hx]
    positivity
  have hrowsum : row.sum = 1 := by
    rw [hrow, expand_strategy_sum rf p (by rw [hplen, hcount])]
    exact hp1
  have hcolsum : col.sum = 1 := by
    rw [hcol, expand_strategy_sum cf _ (by simp),
      replicate_uniform_sum _ hkpos]
  have hb := dot_matVec_bounds A row col n hArect hrowlen hrownn hrowsum
    hcollen hcolnn hcolsum
  rw [hgv]
  exact ⟨rfl, hb.1, hb.2⟩

theorem C3_witness :
    (np_shape [[(1 : ℚ)]] = some (1, 1) ∧ 1 ≤ 1 ∧
     iterated_elimination_dominated_strategies [[(1 : ℚ)]] =
       some ([[(1 : ℚ)]], [true], [true]) ∧
     (fun _ : List (List ℚ) => some ([(1 : ℚ)], (1 : ℚ))) [[(1 : ℚ)]] =
       some ([(1 : ℚ)], (1 : ℚ)) ∧
     [(1 : ℚ)].length = [[(1 : ℚ)]].length ∧ (∀ x ∈ [(1 : ℚ)], 0 ≤ x) ∧
     [(1 : ℚ)].sum = 1 ∧
     chaterjee_epa_algorithm (fun _ => some ([(1 : ℚ)], 1)) [[(1 : ℚ)]] =
       some ([(1 : ℚ)], [(1 : ℚ)], 1)) ∧
    ((1 : ℚ) = dotQ [(1 : ℚ)] (matVec [[(1 : ℚ)]] [(1 : ℚ)]) ∧
     entriesMin [[(1 : ℚ)]] ≤ 1 ∧ (1 : ℚ) ≤ entriesMax [[(1 : ℚ)]]) :=
  ⟨⟨by decide, by decide, by decide, rfl, by decide, by decide, sum_one_eval,
    chaterjee_eval_one⟩,
   C3_game_value_between_min_and_max (fun _ => some ([(1 : ℚ)], 1)) [[(1 : ℚ)]]
     [[(1 : ℚ)]] 1 1 [true] [true] [(1 : ℚ)] 1 [(1 : ℚ)] [(1 : ℚ)] 1
     (by decide) (by decide) (by decide) rfl (by decide) (by decide)
     sum_one_eval chaterjee_eval_one⟩

end Chaterjee
